import Mathlib

/-!
Shallow embedding of `qserver/qiskit_simulator.py`: the register context and
state-lifecycle engine of the qserver quantum-simulator front-end.

The numerical backend (qiskit + Aer) is out of scope of the design (spec §1,
§6); it is modelled as an abstract structure of total state-transforming
functions over an abstract state-vector type `S`, exposing exactly the
operations the source invokes.  Gate descriptors (`HGate()`, `CXGate()`, ...)
are opaque values of a type `G`.  Machine integers (`num_qubits`, qubit
indices) are Python arbitrary-precision `int`s, embedded as `Int`; register
identifiers are non-negative (spec §3), embedded as `Nat`.
-/

namespace QServer

/-- Tagged register entry, mirroring the dataclasses `QubitRegister` (holding
a physical qubit index) and `BitRegister` (holding a classical boolean). -/
inductive RegEntry : Type where
  | QubitRegister (qubit : Int)
  | BitRegister (bit : Bool)
deriving DecidableEq, Repr

/-- The register context: Python `dict` from register id to entry, modelled
as an association list (first match wins; operations below preserve key
uniqueness just as a `dict` does). -/
abbrev Ctx := List (Nat × RegEntry)

/-- Python `reg in self.context` / `self.context[reg]`: first-match lookup. -/
def ctxLookup (c : Ctx) (r : Nat) : Option RegEntry :=
  match c with
  | [] => none
  | (k, v) :: rest => if k = r then some v else ctxLookup rest r

/-- Replacement of the entry at key `r` (identity on other pairs), the
per-pair effect of a dict assignment to an existing key. -/
def replaceEntry (r : Nat) (v : RegEntry) : Nat × RegEntry → Nat × RegEntry
  | (k, w) => if k = r then (r, v) else (k, w)

/-- Python `self.context[reg] = v`: replaces the entry in place when the key
is present, appends a new entry otherwise (dict assignment semantics). -/
def ctxInsert (c : Ctx) (r : Nat) (v : RegEntry) : Ctx :=
  if (ctxLookup c r).isSome then
    c.map (replaceEntry r v)
  else
    c ++ [(r, v)]

/-- Python `del self.context[reg]`. -/
def ctxErase (c : Ctx) (r : Nat) : Ctx :=
  c.filter (fun p => p.1 != r)

/-- The keys of the context. -/
def ctxKeys (c : Ctx) : List Nat :=
  c.map Prod.fst

/-- The physical indices of all `QubitRegister` entries, in context order. -/
def qubitIndices (c : Ctx) : List Int :=
  c.filterMap (fun p =>
    match p.2 with
    | .QubitRegister q => some q
    | .BitRegister _ => none)

/-- The number of `QubitRegister` entries in the context. -/
def numQubitEntries (c : Ctx) : Nat :=
  c.countP (fun p =>
    match p.2 with
    | .QubitRegister _ => true
    | .BitRegister _ => false)

/-- The mutable fields of `QiskitSimulator`: `num_qubits` (a Python `int`),
`context`, and `state` (`None` or a backend state vector of type `S`). -/
structure SimState (S : Type) where
  num_qubits : Int
  context : Ctx
  state : Option S

/-- Abstract numerical backend (spec §6): every state-vector computation the
source performs by building a qiskit circuit and running Aer is one of these
total functions. -/
structure Backend (S : Type) (G : Type) where
  /-- `Statevector([1,0])` / `Statevector([0,1])`: the state built directly
  when the first qubit is allocated (source lines 89-94). -/
  initState : Bool → S
  /-- The circuit run by `new_qubit` when a state already exists (source
  lines 95-104): `n` qubits total, the old state occupying indices `0..n-2`,
  an `X` on index `n-1` when the initial bit is true. -/
  extend : S → Int → Bool → S
  /-- The circuit run by `_gate_operation` (source lines 183-188): apply gate
  `g` to the listed qubit indices of a state on `n` qubits. -/
  applyGate : S → Int → G → List Int → S
  /-- The circuit run by `measure` (source lines 114-120): measure qubit `q`
  of a state on `n` qubits, returning the sampled classical outcome (from
  `get_counts`) and the post-measurement state vector (`get_statevector`). -/
  measureRun : S → Int → Int → Bool × S
  /-- `partial_trace(state, [q]).to_statevector()` (source line 127). -/
  ptrace : S → Int → S

/-- Errors the source can raise: `UsageError` for caller protocol violations,
plus the concrete Python runtime errors reachable in the source: the
`NameError` from the unbound `b_reg` in `new_qubit_from_bit`, the
`AttributeError` from reading `.bit` off the wrong variant, and the qiskit
error from passing `None` where a state vector is required. -/
inductive PyError : Type where
  | UsageError (msg : String)
  | NameError (msg : String)
  | AttributeError (msg : String)
  | QiskitError (msg : String)
deriving DecidableEq, Repr

/-- Result of one simulator operation.  Python exceptions do not roll back
prior field assignments, so the error case carries the state as mutated up to
the point where the exception was raised. -/
abbrev OpResult (S : Type) (α : Type) := Except (PyError × SimState S) (α × SimState S)

variable {S G : Type}

/-- `reset()` (source lines 53-60): empty context, zero qubits, no state. -/
def resetState (S : Type) : SimState S := ⟨0, [], none⟩

/-- The `while` loop of `fresh` (source lines 74-81), scanning `i = 0, 1, ...`
for the first key not in the context.  The loop is bounded by fuel: a context
with `k` entries has at most `k` distinct keys, so the scan always stops
within `k + 1` steps. -/
def freshAux (c : Ctx) : Nat → Nat → Nat
  | 0, i => i
  | fuel + 1, i => if (ctxLookup c i).isSome then freshAux c fuel (i + 1) else i

/-- `fresh()` (source lines 74-81): first unused register identifier. -/
def fresh (c : Ctx) : Nat :=
  freshAux c (c.length + 1) 0

/-- `new_qubit(reg, bvalue)` (source lines 83-106): reject an existing id,
increment `num_qubits`, build the one-qubit state directly if no state
exists, otherwise run the extension circuit; record the register at physical
index `num_qubits - 1` (post-increment). -/
def new_qubit (B : Backend S G) (reg : Nat) (bvalue : Bool) (st : SimState S) :
    OpResult S Unit :=
  if (ctxLookup st.context reg).isSome then
    .error (.UsageError ("Register " ++ toString reg ++ " already exists"), st)
  else
    let n := st.num_qubits + 1
    let s' : S :=
      match st.state with
      | none => B.initState bvalue
      | some s => B.extend s n bvalue
    .ok ((), ⟨n, ctxInsert st.context reg (.QubitRegister (n - 1)), some s'⟩)

/-- The index relabeling applied by the loop at source lines 131-135: a qubit
index strictly greater than the measured index `q` drops by one. -/
def shiftIdx (q x : Int) : Int :=
  if x > q then x - 1 else x

/-- The per-entry effect of that loop: only `QubitRegister` entries with
index above `q` are touched. -/
def shiftEntry (q : Int) : RegEntry → RegEntry
  | .QubitRegister x => .QubitRegister (shiftIdx q x)
  | .BitRegister b => .BitRegister b

/-- `measure(reg)` (source lines 108-135): validate the register as a qubit
(inlining `_check_qubit_reg_exists`), run the measurement circuit on the
current state (qiskit raises if the state is `None`), convert the entry to a
`BitRegister` holding the outcome, decrement `num_qubits`, reduce the state
by tracing out index `q` (the state becomes `None` when no qubits remain),
and close the index gap by decrementing every qubit index greater than `q`. -/
def measure (B : Backend S G) (reg : Nat) (st : SimState S) : OpResult S Unit :=
  match ctxLookup st.context reg with
  | none => .error (.UsageError ("Register " ++ toString reg ++ " does not exist"), st)
  | some (.BitRegister _) =>
    .error (.UsageError ("Register " ++ toString reg ++ " must be of type Qubit"), st)
  | some (.QubitRegister q) =>
    match st.state with
    | none => .error (.QiskitError "cannot use None as a state vector", st)
    | some s =>
      let r := B.measureRun s st.num_qubits q
      let ctx1 := ctxInsert st.context reg (.BitRegister r.1)
      let n1 := st.num_qubits - 1
      let st1 : Option S := if n1 > 0 then some (B.ptrace r.2 q) else none
      .ok ((), ⟨n1, ctx1.map (fun p => (p.1, shiftEntry q p.2)), st1⟩)

/-- The final line of `read` (source line 148): `return int(self.context[reg].bit)`.
The error branch models Python raising when `.bit` is read off a
non-`BitRegister` entry (unreachable after a successful measure). -/
def readFinish (st' : SimState S) (reg : Nat) : OpResult S Int :=
  match ctxLookup st'.context reg with
  | some (.BitRegister b) => .ok ((if b then 1 else 0), st')
  | _ => .error (.AttributeError "object has no attribute bit", st')

/-- `read(reg)` (source lines 137-148): require existence; measure first if
the register is a qubit (propagating its exceptions); return the stored bit
as `0`/`1`. -/
def read (B : Backend S G) (reg : Nat) (st : SimState S) : OpResult S Int :=
  match ctxLookup st.context reg with
  | none => .error (.UsageError ("Register " ++ toString reg ++ " does not exist"), st)
  | some (.QubitRegister _) =>
    match measure B reg st with
    | .error e => .error e
    | .ok (_, st') => readFinish st' reg
  | some (.BitRegister _) => readFinish st reg

/-- `discard(reg)` (source lines 150-161): require existence; measure first
if the register is a qubit (propagating its exceptions); then delete the
entry. -/
def discard (B : Backend S G) (reg : Nat) (st : SimState S) : OpResult S Unit :=
  match ctxLookup st.context reg with
  | none => .error (.UsageError ("Register " ++ toString reg ++ " does not exist"), st)
  | some (.QubitRegister _) =>
    match measure B reg st with
    | .error e => .error e
    | .ok (_, st') => .ok ((), { st' with context := ctxErase st'.context reg })
  | some (.BitRegister _) => .ok ((), { st with context := ctxErase st.context reg })

/-- `new_qubit_from_bit(reg)` (source lines 163-171): validate the register
as a bit (inlining `_check_bit_reg_exists`) and delete its entry.  The source
then evaluates `self.new_qubit(reg, b_reg.bit)`, but no variable `b_reg` is
ever bound in the method, so Python raises `NameError` while evaluating the
argument, before `new_qubit` is entered; the `del` has already happened. -/
def new_qubit_from_bit (reg : Nat) (st : SimState S) : OpResult S Unit :=
  match ctxLookup st.context reg with
  | none => .error (.UsageError ("Register " ++ toString reg ++ " does not exist"), st)
  | some (.QubitRegister _) =>
    .error (.UsageError ("Register " ++ toString reg ++ " must be of type Bit"), st)
  | some (.BitRegister _) =>
    .error (.NameError "name b_reg is not defined",
      { st with context := ctxErase st.context reg })

/-- The target-validation loop of `_gate_operation` (source lines 174-175),
inlining `_check_qubit_reg_exists` for each target in order. -/
def checkTargets (c : Ctx) : List Nat → Option PyError
  | [] => none
  | x :: rest =>
    match ctxLookup c x with
    | none => some (.UsageError ("Register " ++ toString x ++ " does not exist"))
    | some (.BitRegister _) =>
      some (.UsageError ("Register " ++ toString x ++ " must be of type Qubit"))
    | some (.QubitRegister _) => checkTargets c rest

/-- Outcome of the control-validation loop: an exception, an early `return`
(classical control short-circuit), or fall-through to the gate application. -/
inductive CtrlResult : Type where
  | err (e : PyError)
  | skip
  | proceed
deriving DecidableEq, Repr

/-- The control loop of `_gate_operation` (source lines 176-180): each
control in order is checked to exist as a `BitRegister` (inlining
`_check_bit_reg_exists`) and then tested; a `False` control returns from the
whole operation immediately, so later controls are never examined. -/
def checkControls (c : Ctx) : List Nat → CtrlResult
  | [] => .proceed
  | y :: rest =>
    match ctxLookup c y with
    | none => .err (.UsageError ("Register " ++ toString y ++ " does not exist"))
    | some (.QubitRegister _) =>
      .err (.UsageError ("Register " ++ toString y ++ " must be of type Bit"))
    | some (.BitRegister b) => if b then checkControls c rest else .skip

/-- `_gate_operation(gate, regs, controls)` (source lines 173-188): validate
all targets, then walk the controls (possibly short-circuiting), then map
each target to its current physical index and run the gate circuit, adopting
the resulting state.  The `AttributeError` branch models Python raising if
`.qubit` were read off a non-qubit entry (unreachable after validation); the
qiskit error models `initialize(None, ...)`. -/
def gate_operation (B : Backend S G) (g : G) (regs : List Nat)
    (controls : List Nat) (st : SimState S) : OpResult S Unit :=
  match checkTargets st.context regs with
  | some e => .error (e, st)
  | none =>
    match checkControls st.context controls with
    | .err e => .error (e, st)
    | .skip => .ok ((), st)
    | .proceed =>
      match st.state with
      | none => .error (.QiskitError "cannot use None as a state vector", st)
      | some s =>
        match regs.mapM (fun x =>
          match ctxLookup st.context x with
          | some (.QubitRegister q) => some q
          | _ => none) with
        | none => .error (.AttributeError "object has no attribute qubit", st)
        | some qubits =>
          .ok ((), { st with state := some (B.applyGate s st.num_qubits g qubits) })

/-- The physical index a gate application uses for target `x` (the
`self.context[x].qubit` of source line 182); only meaningful when `x` is a
validated qubit register. -/
def qubitIdx (c : Ctx) (x : Nat) : Int :=
  match ctxLookup c x with
  | some (.QubitRegister q) => q
  | _ => 0

/-- Gate descriptors of the per-gate entry points (source lines 190-233).
`A` is the type of the real-valued angle arguments; the complex exponentials
of `gate_Diag` are applied backend-side and the descriptor carries the
angles opaquely. -/
inductive GateDesc (A : Type) : Type where
  | HGate
  | XGate
  | YGate
  | ZGate
  | TGate
  | TGateInv
  | SGate
  | SGateInv
  | CXGate
  | CCXGate
  | RZGate (r : A)
  | DiagonalGate (a b : A)
  | control (g : GateDesc A)

/-- `gate_H(reg, controls)` (source lines 190-191). -/
def gate_H {A : Type} (B : Backend S (GateDesc A)) (reg : Nat)
    (controls : List Nat) (st : SimState S) : OpResult S Unit :=
  gate_operation B .HGate [reg] controls st

/-- `gate_X(reg, controls)` (source lines 193-194). -/
def gate_X {A : Type} (B : Backend S (GateDesc A)) (reg : Nat)
    (controls : List Nat) (st : SimState S) : OpResult S Unit :=
  gate_operation B .XGate [reg] controls st

/-- `gate_CNOT(x, y, controls)` (source lines 214-215). -/
def gate_CNOT {A : Type} (B : Backend S (GateDesc A)) (x y : Nat)
    (controls : List Nat) (st : SimState S) : OpResult S Unit :=
  gate_operation B .CXGate [x, y] controls st

/-- `gate_Toffoli(x, y, z, controls)` (source lines 217-218). -/
def gate_Toffoli {A : Type} (B : Backend S (GateDesc A)) (x y z : Nat)
    (controls : List Nat) (st : SimState S) : OpResult S Unit :=
  gate_operation B .CCXGate [x, y, z] controls st

/-- `gate_Rz(r, reg, controls)` (source lines 220-221). -/
def gate_Rz {A : Type} (B : Backend S (GateDesc A)) (r : A) (reg : Nat)
    (controls : List Nat) (st : SimState S) : OpResult S Unit :=
  gate_operation B (.RZGate r) [reg] controls st

/-- `gate_CZ(x, y, controls)` (source lines 226-227). -/
def gate_CZ {A : Type} (B : Backend S (GateDesc A)) (x y : Nat)
    (controls : List Nat) (st : SimState S) : OpResult S Unit :=
  gate_operation B (.control .ZGate) [x, y] controls st

/-- One public command of the simulator facade (spec §6), used to state the
reachability invariant over arbitrary command sequences.  `gate` covers every
`gate_*` entry point, each of which delegates to `_gate_operation`. -/
inductive Op (G : Type) : Type where
  | reset
  | fresh
  | new_qubit (reg : Nat) (b : Bool)
  | new_qubit_from_bit (reg : Nat)
  | measure (reg : Nat)
  | read (reg : Nat)
  | discard (reg : Nat)
  | gate (g : G) (regs : List Nat) (controls : List Nat)

/-- Run one public operation, discarding any returned value. -/
def runOp (B : Backend S G) : Op G → SimState S → OpResult S Unit
  | .reset, _ => .ok ((), resetState S)
  | .fresh, st => .ok ((), st)
  | .new_qubit r b, st => new_qubit B r b st
  | .new_qubit_from_bit r, st => new_qubit_from_bit r st
  | .measure r, st => measure B r st
  | .read r, st =>
    match read B r st with
    | .ok (_, st') => .ok ((), st')
    | .error e => .error e
  | .discard r, st => discard B r st
  | .gate g regs controls, st => gate_operation B g regs controls st

/-- Run a sequence of operations, succeeding only if every step succeeds. -/
def runOps (B : Backend S G) : List (Op G) → SimState S → Option (SimState S)
  | [], st => some st
  | op :: rest, st =>
    match runOp B op st with
    | .ok (_, st') => runOps B rest st'
    | .error _ => none

/-- The context part of the central invariant (spec §3): keys are distinct
(dict), each index in `{0, ..., num_qubits - 1}` is held by exactly one
`QubitRegister` entry and no entry holds an index outside that range, and
`num_qubits` counts the `QubitRegister` entries. -/
def CtxInv (c : Ctx) (n : Int) : Prop :=
  (ctxKeys c).Nodup ∧
  (∀ j : Int, (qubitIndices c).count j = if 0 ≤ j ∧ j < n then 1 else 0) ∧
  n = ((qubitIndices c).length : Int)

/-- A concrete backend over classical basis states (index ↦ bit), used to
instantiate theorems at concrete inputs.  It realizes the spec §6 backend
contract on basis states: measuring a qubit of a basis state
deterministically returns its stored bit, and extension appends a qubit at
the top index. -/
def FunBackend : Backend (Int → Bool) Unit where
  initState b := fun _ => b
  extend s n b := fun i => if i = n - 1 then b else s i
  applyGate s _ _ _ := s
  measureRun s _ q := (s q, s)
  ptrace s q := fun i => if i < q then s i else s (i + 1)

/-- Whether an operation result is a raised `UsageError`. -/
def usageFailure {α : Type} : OpResult S α → Bool
  | .error (.UsageError _, _) => true
  | _ => false

/-! ### Concrete states used to instantiate the theorems -/

/-- Three qubits at registers 10, 11, 12 (physical indices 0, 1, 2). -/
def ctxW : Ctx :=
  [(10, .QubitRegister 0), (11, .QubitRegister 1), (12, .QubitRegister 2)]

/-- A three-qubit basis state over `FunBackend`, all qubits `false`. -/
def stW : SimState (Int → Bool) := ⟨3, ctxW, some (fun _ => false)⟩

/-- The state after `measure 10` on `stW`: register 10 became `Bit false`,
registers 11 and 12 moved down to indices 0 and 1. -/
def stW2 : SimState (Int → Bool) :=
  ⟨2, [(10, .BitRegister false), (11, .QubitRegister 0), (12, .QubitRegister 1)],
    some (FunBackend.ptrace (fun _ => false) 0)⟩

/-- One qubit (register 0), a false bit (register 1), a true bit (register 2). -/
def ctxG : Ctx :=
  [(0, .QubitRegister 0), (1, .BitRegister false), (2, .BitRegister true)]

/-- State used for the gate-dispatch theorems. -/
def stG : SimState (Int → Bool) := ⟨1, ctxG, some (fun _ => false)⟩

/-- A single classical bit: register 0 holds `Bit true`, no quantum state. -/
def stB : SimState (Int → Bool) := ⟨0, [(0, .BitRegister true)], none⟩

/-- A bit (register 3) next to a qubit (register 4). -/
def stR : SimState (Int → Bool) :=
  ⟨1, [(3, .BitRegister true), (4, .QubitRegister 0)], some (fun _ => true)⟩

/-- The state right after `new_qubit 0 true` from the initial state. -/
def stC7 : SimState (Int → Bool) :=
  ⟨1, [(0, .QubitRegister 0)], some (FunBackend.initState true)⟩

/-- A command sequence exercising allocation and measurement. -/
def opsW : List (Op Unit) := [.new_qubit 5 true, .new_qubit 7 false, .measure 5]

/-- The state `opsW` produces from the initial state. -/
def stOpsW : SimState (Int → Bool) :=
  ⟨1, [(5, .BitRegister true), (7, .QubitRegister 0)],
    some (FunBackend.ptrace (FunBackend.extend (FunBackend.initState true) 2 false) 0)⟩

/-! ### Association-list lemmas for the context -/

theorem ctxKeys_cons (k : Nat) (v : RegEntry) (c : Ctx) :
    ctxKeys ((k, v) :: c) = k :: ctxKeys c := rfl

theorem lookup_isSome_iff {c : Ctx} {r : Nat} :
    (ctxLookup c r).isSome ↔ r ∈ ctxKeys c := by
  induction c with
  | nil => simp [ctxLookup, ctxKeys]
  | cons p rest ih =>
    obtain ⟨k, v⟩ := p
    by_cases hk : k = r
    · subst hk
      simp [ctxLookup, ctxKeys]
    · rw [ctxKeys_cons]
      simp only [ctxLookup, if_neg hk, List.mem_cons, ih]
      constructor
      · exact fun h => Or.inr h
      · rintro (h | h)
        · exact absurd h.symm hk
        · exact h

theorem lookup_mem_keys {c : Ctx} {r : Nat} {v : RegEntry}
    (h : ctxLookup c r = some v) : r ∈ ctxKeys c :=
  lookup_isSome_iff.mp (by simp [h])

theorem lookup_none_not_mem {c : Ctx} {r : Nat}
    (h : ctxLookup c r = none) : r ∉ ctxKeys c := by
  intro hm
  have := lookup_isSome_iff.mpr hm
  simp [h] at this

theorem ctxInsert_of_lookup_none {c : Ctx} {r : Nat} (v : RegEntry)
    (h : ctxLookup c r = none) : ctxInsert c r v = c ++ [(r, v)] := by
  simp [ctxInsert, h]

theorem ctxInsert_of_isSome {c : Ctx} {r : Nat} (v : RegEntry)
    (h : (ctxLookup c r).isSome) :
    ctxInsert c r v = c.map (replaceEntry r v) := by
  simp [ctxInsert, h]

theorem lookup_append_of_none {c c' : Ctx} {r : Nat}
    (h : ctxLookup c r = none) : ctxLookup (c ++ c') r = ctxLookup c' r := by
  induction c with
  | nil => simp
  | cons p rest ih =>
    obtain ⟨k, v⟩ := p
    simp only [ctxLookup] at h
    by_cases hk : k = r
    · simp [hk] at h
    · rw [List.cons_append]
      simp only [ctxLookup, if_neg hk]
      exact ih (by simpa [hk] using h)

theorem lookup_append_of_some {c c' : Ctx} {r : Nat} {v : RegEntry}
    (h : ctxLookup c r = some v) : ctxLookup (c ++ c') r = some v := by
  induction c with
  | nil => simp [ctxLookup] at h
  | cons p rest ih =>
    obtain ⟨k, w⟩ := p
    rw [List.cons_append]
    simp only [ctxLookup] at h ⊢
    by_cases hk : k = r
    · simpa [hk] using h
    · rw [if_neg hk] at h ⊢
      exact ih h

theorem lookup_replace_self {c : Ctx} {r : Nat} (v : RegEntry)
    (h : (ctxLookup c r).isSome) :
    ctxLookup (c.map (replaceEntry r v)) r = some v := by
  induction c with
  | nil => simp [ctxLookup] at h
  | cons p rest ih =>
    obtain ⟨k, w⟩ := p
    by_cases hk : k = r
    · subst hk
      rw [List.map_cons, show replaceEntry k v (k, w) = (k, v) by simp [replaceEntry]]
      simp [ctxLookup]
    · have h' : (ctxLookup rest r).isSome := by
        simpa [ctxLookup, hk] using h
      rw [List.map_cons, show replaceEntry r v (k, w) = (k, w) by simp [replaceEntry, hk]]
      simp only [ctxLookup, if_neg hk]
      exact ih h'

theorem lookup_replace_ne {c : Ctx} {r x : Nat} (v : RegEntry) (hx : x ≠ r) :
    ctxLookup (c.map (replaceEntry r v)) x = ctxLookup c x := by
  induction c with
  | nil => simp
  | cons p rest ih =>
    obtain ⟨k, w⟩ := p
    by_cases hk : k = r
    · subst hk
      have hkx : ¬ k = x := fun e => hx e.symm
      rw [List.map_cons, show replaceEntry k v (k, w) = (k, v) by simp [replaceEntry]]
      simp [ctxLookup, hkx, ih]
    · rw [List.map_cons, show replaceEntry r v (k, w) = (k, w) by simp [replaceEntry, hk]]
      simp only [ctxLookup]
      by_cases hkx : k = x
      · simp [hkx]
      · simp [hkx, ih]

theorem lookup_ctxInsert_self (c : Ctx) (r : Nat) (v : RegEntry) :
    ctxLookup (ctxInsert c r v) r = some v := by
  cases h : ctxLookup c r with
  | none =>
    rw [ctxInsert_of_lookup_none v h, lookup_append_of_none h]
    simp [ctxLookup]
  | some w =>
    rw [ctxInsert_of_isSome v (by simp [h])]
    exact lookup_replace_self v (by simp [h])

theorem lookup_ctxInsert_ne (c : Ctx) {r x : Nat} (v : RegEntry) (hx : x ≠ r) :
    ctxLookup (ctxInsert c r v) x = ctxLookup c x := by
  cases h : ctxLookup c r with
  | none =>
    rw [ctxInsert_of_lookup_none v h]
    cases hx2 : ctxLookup c x with
    | none =>
      rw [lookup_append_of_none hx2]
      simp [ctxLookup, if_neg (Ne.symm hx)]
    | some w => rw [lookup_append_of_some hx2]
  | some w =>
    rw [ctxInsert_of_isSome v (by simp [h])]
    exact lookup_replace_ne v hx

theorem lookup_map_shiftEntry (c : Ctx) (q : Int) (x : Nat) :
    ctxLookup (c.map (fun p => (p.1, shiftEntry q p.2))) x
      = (ctxLookup c x).map (shiftEntry q) := by
  induction c with
  | nil => simp [ctxLookup]
  | cons p rest ih =>
    obtain ⟨k, w⟩ := p
    by_cases hk : k = x
    · subst hk
      simp [ctxLookup]
    · simp only [List.map_cons, ctxLookup, if_neg hk]
      exact ih

theorem ctxKeys_append (c c' : Ctx) :
    ctxKeys (c ++ c') = ctxKeys c ++ ctxKeys c' := by
  simp [ctxKeys]

theorem ctxKeys_map_of_fst {f : Nat × RegEntry → Nat × RegEntry}
    (hf : ∀ p, (f p).1 = p.1) (c : Ctx) : ctxKeys (c.map f) = ctxKeys c := by
  induction c with
  | nil => rfl
  | cons p rest ih =>
    simp only [List.map_cons, ctxKeys] at ih ⊢
    rw [hf p, ih]

theorem ctxKeys_ctxInsert_some (c : Ctx) {r : Nat} (v : RegEntry)
    (h : (ctxLookup c r).isSome) : ctxKeys (ctxInsert c r v) = ctxKeys c := by
  rw [ctxInsert_of_isSome v h]
  refine ctxKeys_map_of_fst (fun p => ?_) c
  obtain ⟨k, w⟩ := p
  by_cases hp : k = r
  · simp [replaceEntry, hp]
  · simp [replaceEntry, hp]

theorem replace_map_id {c : Ctx} {r : Nat} (v : RegEntry) (h : r ∉ ctxKeys c) :
    c.map (replaceEntry r v) = c := by
  induction c with
  | nil => rfl
  | cons p rest ih =>
    obtain ⟨k, w⟩ := p
    rw [ctxKeys_cons] at h
    simp only [List.mem_cons, not_or] at h
    have hkr : ¬ k = r := fun e => h.1 e.symm
    rw [List.map_cons, show replaceEntry r v (k, w) = (k, w) by
      simp [replaceEntry, hkr], ih h.2]

theorem ctxErase_of_not_mem {c : Ctx} {r : Nat} (h : r ∉ ctxKeys c) :
    ctxErase c r = c := by
  induction c with
  | nil => rfl
  | cons p rest ih =>
    obtain ⟨k, w⟩ := p
    rw [ctxKeys_cons] at h
    simp only [List.mem_cons, not_or] at h
    have hkr : ¬ k = r := fun e => h.1 e.symm
    simp only [ctxErase] at ih ⊢
    simp [List.filter_cons, bne_iff_ne, hkr, ih h.2]

theorem lookup_ctxErase_self (c : Ctx) (r : Nat) :
    ctxLookup (ctxErase c r) r = none := by
  induction c with
  | nil => rfl
  | cons p rest ih =>
    obtain ⟨k, w⟩ := p
    simp only [ctxErase] at ih ⊢
    by_cases hk : k = r
    · subst hk
      simp [List.filter_cons, ctxLookup, ih]
    · simp [List.filter_cons, bne_iff_ne, hk, ctxLookup, ih]

theorem lookup_ctxErase_ne {c : Ctx} {r x : Nat} (hx : x ≠ r) :
    ctxLookup (ctxErase c r) x = ctxLookup c x := by
  induction c with
  | nil => rfl
  | cons p rest ih =>
    obtain ⟨k, w⟩ := p
    simp only [ctxErase] at ih ⊢
    by_cases hk : k = r
    · subst hk
      have hkx : ¬ k = x := fun e => hx (e.symm)
      simp [List.filter_cons, ctxLookup, hkx, ih]
    · by_cases hkx : k = x
      · subst hkx
        simp [List.filter_cons, bne_iff_ne, hk, ctxLookup]
      · simp [List.filter_cons, bne_iff_ne, hk, hkx, ctxLookup, ih]

theorem ctxKeys_ctxErase_sublist (c : Ctx) (r : Nat) :
    List.Sublist (ctxKeys (ctxErase c r)) (ctxKeys c) :=
  (List.filter_sublist c).map Prod.fst

/-! ### Lemmas about the multiset of live qubit indices -/

theorem qubitIndices_append (c c' : Ctx) :
    qubitIndices (c ++ c') = qubitIndices c ++ qubitIndices c' := by
  simp [qubitIndices]

theorem qubitIndices_cons_qubit (k : Nat) (q : Int) (c : Ctx) :
    qubitIndices ((k, .QubitRegister q) :: c) = q :: qubitIndices c := rfl

theorem qubitIndices_cons_bit (k : Nat) (b : Bool) (c : Ctx) :
    qubitIndices ((k, .BitRegister b) :: c) = qubitIndices c := rfl

theorem qubitIndices_map_shiftEntry (q : Int) (c : Ctx) :
    qubitIndices (c.map (fun p => (p.1, shiftEntry q p.2)))
      = (qubitIndices c).map (shiftIdx q) := by
  induction c with
  | nil => rfl
  | cons p rest ih =>
    obtain ⟨k, w⟩ := p
    cases w with
    | QubitRegister x =>
      simp only [List.map_cons]
      rw [show shiftEntry q (RegEntry.QubitRegister x)
            = .QubitRegister (shiftIdx q x) from rfl]
      rw [qubitIndices_cons_qubit, qubitIndices_cons_qubit, List.map_cons, ih]
    | BitRegister b =>
      simp only [List.map_cons]
      rw [show shiftEntry q (RegEntry.BitRegister b) = .BitRegister b from rfl]
      rw [qubitIndices_cons_bit, qubitIndices_cons_bit, ih]

theorem mem_qubitIndices_of_lookup {c : Ctx} {r : Nat} {q : Int}
    (h : ctxLookup c r = some (.QubitRegister q)) : q ∈ qubitIndices c := by
  induction c with
  | nil => simp [ctxLookup] at h
  | cons p rest ih =>
    obtain ⟨k, w⟩ := p
    by_cases hk : k = r
    · subst hk
      have hw : w = .QubitRegister q := by simpa [ctxLookup] using h
      subst hw
      rw [qubitIndices_cons_qubit]
      exact List.mem_cons_self q _
    · have h' : ctxLookup rest r = some (.QubitRegister q) := by
        simpa [ctxLookup, hk] using h
      cases w with
      | QubitRegister x =>
        rw [qubitIndices_cons_qubit]
        exact List.mem_cons_of_mem x (ih h')
      | BitRegister b =>
        rw [qubitIndices_cons_bit]
        exact ih h'

theorem qubitIndices_replace_perm {c : Ctx} {r : Nat} {q : Int} (b : Bool)
    (hk : (ctxKeys c).Nodup) (h : ctxLookup c r = some (.QubitRegister q)) :
    List.Perm (qubitIndices (ctxInsert c r (.BitRegister b)) ++ [q])
      (qubitIndices c) := by
  induction c with
  | nil => simp [ctxLookup] at h
  | cons p rest ih =>
    obtain ⟨k, w⟩ := p
    rw [ctxKeys_cons] at hk
    have hk1 := (List.nodup_cons.mp hk).1
    have hk2 := (List.nodup_cons.mp hk).2
    have hins : (ctxLookup ((k, w) :: rest) r).isSome := by simp [h]
    rw [ctxInsert_of_isSome _ hins, List.map_cons]
    by_cases hkr : k = r
    · subst hkr
      have hw : w = .QubitRegister q := by simpa [ctxLookup] using h
      subst hw
      rw [show replaceEntry k (RegEntry.BitRegister b) (k, RegEntry.QubitRegister q)
            = (k, .BitRegister b) by simp [replaceEntry]]
      rw [replace_map_id _ hk1]
      rw [qubitIndices_cons_bit, qubitIndices_cons_qubit]
      exact List.perm_append_singleton q _
    · have h' : ctxLookup rest r = some (.QubitRegister q) := by
        simpa [ctxLookup, hkr] using h
      have hins' : (ctxLookup rest r).isSome := by simp [h']
      have ihp := ih hk2 h'
      rw [ctxInsert_of_isSome _ hins'] at ihp
      rw [show replaceEntry r (RegEntry.BitRegister b) (k, w) = (k, w) by
        simp [replaceEntry, hkr]]
      cases w with
      | QubitRegister x =>
        rw [qubitIndices_cons_qubit, qubitIndices_cons_qubit, List.cons_append]
        exact ihp.cons x
      | BitRegister bb =>
        rw [qubitIndices_cons_bit, qubitIndices_cons_bit]
        exact ihp

theorem qubitIndices_ctxErase_bit {c : Ctx} {r : Nat} {b : Bool}
    (hk : (ctxKeys c).Nodup) (h : ctxLookup c r = some (.BitRegister b)) :
    qubitIndices (ctxErase c r) = qubitIndices c := by
  induction c with
  | nil => rfl
  | cons p rest ih =>
    obtain ⟨k, w⟩ := p
    rw [ctxKeys_cons] at hk
    have hk1 := (List.nodup_cons.mp hk).1
    have hk2 := (List.nodup_cons.mp hk).2
    by_cases hkr : k = r
    · subst hkr
      have hw : w = .BitRegister b := by simpa [ctxLookup] using h
      subst hw
      simp only [ctxErase, List.filter_cons]
      rw [if_neg (by simp)]
      rw [show List.filter (fun p => p.1 != k) rest = ctxErase rest k from rfl]
      rw [ctxErase_of_not_mem hk1, qubitIndices_cons_bit]
    · have h' : ctxLookup rest r = some (.BitRegister b) := by
        simpa [ctxLookup, hkr] using h
      have heq : ctxErase ((k, w) :: rest) r = (k, w) :: ctxErase rest r := by
        simp [ctxErase, List.filter_cons, bne_iff_ne, hkr]
      rw [heq]
      cases w with
      | QubitRegister x =>
        rw [qubitIndices_cons_qubit, qubitIndices_cons_qubit, ih hk2 h']
      | BitRegister bb =>
        rw [qubitIndices_cons_bit, qubitIndices_cons_bit, ih hk2 h']

/-! ### Counting lemmas for the index-shift map -/

theorem count_map_shiftIdx_self {l : List Int} {q : Int} (hq : q ∉ l) :
    (l.map (shiftIdx q)).count q = l.count (q + 1) := by
  induction l with
  | nil => rfl
  | cons x rest ih =>
    have hx : x ≠ q := fun e => hq (e ▸ List.mem_cons_self x rest)
    have hq' : q ∉ rest := fun hm => hq (List.mem_cons_of_mem x hm)
    simp only [List.map_cons, List.count_cons, ih hq']
    by_cases hx1 : x = q + 1
    · subst hx1
      have hs : shiftIdx q (q + 1) = q := by
        simp only [shiftIdx]
        split <;> omega
      simp [hs]
    · have hs : shiftIdx q x ≠ q := by
        simp only [shiftIdx]
        split <;> omega
      simp [hs, hx1]

theorem count_map_shiftIdx_ne (l : List Int) {q j : Int} (hj : j ≠ q) :
    (l.map (shiftIdx q)).count j = l.count (if q < j then j + 1 else j) := by
  induction l with
  | nil => rfl
  | cons x rest ih =>
    simp only [List.map_cons, List.count_cons, ih]
    by_cases hx : shiftIdx q x = j
    · have hxx : x = (if q < j then j + 1 else j) := by
        simp only [shiftIdx] at hx
        split at hx <;> split <;> omega
      rw [if_pos (beq_iff_eq.mpr hx), if_pos (beq_iff_eq.mpr hxx)]
    · have hxx : x ≠ (if q < j then j + 1 else j) := by
        simp only [shiftIdx] at hx
        split at hx <;> split <;> omega
      rw [if_neg (fun hb => hx (beq_iff_eq.mp hb)),
        if_neg (fun hb => hxx (beq_iff_eq.mp hb))]

theorem length_qubitIndices (c : Ctx) :
    (qubitIndices c).length = numQubitEntries c := by
  induction c with
  | nil => rfl
  | cons p rest ih =>
    obtain ⟨k, w⟩ := p
    cases w with
    | QubitRegister x =>
      rw [qubitIndices_cons_qubit]
      simp [numQubitEntries, List.countP_cons, ih]
    | BitRegister b =>
      rw [qubitIndices_cons_bit]
      simp [numQubitEntries, List.countP_cons, ih]

/-! ### Preservation of the context invariant by each structural change -/

theorem ctxInv_reset : CtxInv ([] : Ctx) 0 :=
  ⟨List.nodup_nil, fun j => by rw [if_neg (by omega)]; rfl, rfl⟩

theorem ctxInv_new_qubit {c : Ctx} {n : Int} {r : Nat}
    (hinv : CtxInv c n) (hr : ctxLookup c r = none) :
    CtxInv (ctxInsert c r (.QubitRegister n)) (n + 1) := by
  obtain ⟨hkeys, hcount, hlen⟩ := hinv
  have hn0 : 0 ≤ n := by rw [hlen]; exact Int.ofNat_nonneg _
  rw [ctxInsert_of_lookup_none _ hr]
  refine ⟨?_, ?_, ?_⟩
  · rw [ctxKeys_append, List.nodup_append]
    refine ⟨hkeys, List.nodup_singleton r, ?_⟩
    intro a ha hb
    have : a = r := by simpa [ctxKeys] using hb
    subst this
    exact lookup_none_not_mem hr ha
  · intro j
    rw [qubitIndices_append, List.count_append,
      show qubitIndices [(r, RegEntry.QubitRegister n)] = [n] from rfl, hcount j]
    by_cases hj : j = n
    · subst hj
      rw [if_neg (by omega), if_pos (by omega)]
      simp [List.count_cons]
    · have hcnt : List.count j [n] = 0 := by
        rw [show [n] = n :: ([] : List Int) from rfl, List.count_cons,
          if_neg (fun hb => hj (beq_iff_eq.mp hb).symm)]
        simp
      rw [hcnt]
      by_cases hc : 0 ≤ j ∧ j < n
      · rw [if_pos hc, if_pos (by omega)]
      · rw [if_neg hc, if_neg (by omega)]
  · rw [qubitIndices_append,
      show qubitIndices [(r, RegEntry.QubitRegister n)] = [n] from rfl,
      List.length_append]
    simp only [List.length_singleton]
    push_cast
    omega

theorem ctxInv_measure {c : Ctx} {n : Int} {r : Nat} {q : Int} (b : Bool)
    (hinv : CtxInv c n) (hr : ctxLookup c r = some (.QubitRegister q)) :
    CtxInv ((ctxInsert c r (.BitRegister b)).map (fun p => (p.1, shiftEntry q p.2)))
      (n - 1) := by
  obtain ⟨hkeys, hcount, hlen⟩ := hinv
  have hqmem : q ∈ qubitIndices c := mem_qubitIndices_of_lookup hr
  have hq : 0 ≤ q ∧ q < n := by
    by_contra hcon
    have hc := hcount q
    rw [if_neg hcon] at hc
    rw [← List.count_pos_iff] at hqmem
    omega
  have hperm := qubitIndices_replace_perm b hkeys hr
  have hc1 : ∀ j : Int, (qubitIndices (ctxInsert c r (.BitRegister b))).count j
      = if 0 ≤ j ∧ j < n ∧ j ≠ q then 1 else 0 := by
    intro j
    have hpc := hperm.count_eq j
    rw [List.count_append, hcount j] at hpc
    have hsing : List.count j [q] = if j = q then 1 else 0 := by
      by_cases hjq : j = q
      · subst hjq
        rw [if_pos rfl]
        simp [List.count_cons]
      · rw [show [q] = q :: ([] : List Int) from rfl, List.count_cons,
          if_neg (fun hb => hjq (beq_iff_eq.mp hb).symm), if_neg hjq]
        simp
    rw [hsing] at hpc
    by_cases hin : 0 ≤ j ∧ j < n
    · rw [if_pos hin] at hpc
      by_cases hjq : j = q
      · rw [if_pos hjq] at hpc
        rw [if_neg (fun h => h.2.2 hjq)]
        omega
      · rw [if_neg hjq] at hpc
        rw [if_pos ⟨hin.1, hin.2, hjq⟩]
        omega
    · rw [if_neg hin] at hpc
      rw [if_neg (fun h => hin ⟨h.1, h.2.1⟩)]
      by_cases hjq : j = q
      · rw [if_pos hjq] at hpc
        omega
      · rw [if_neg hjq] at hpc
        omega
  have hqnot : q ∉ qubitIndices (ctxInsert c r (.BitRegister b)) := by
    intro hm
    have hc := hc1 q
    rw [if_neg (fun h => h.2.2 rfl)] at hc
    rw [← List.count_pos_iff] at hm
    omega
  refine ⟨?_, ?_, ?_⟩
  · rw [ctxKeys_map_of_fst (f := fun p => (p.1, shiftEntry q p.2)) (fun p => rfl),
      ctxKeys_ctxInsert_some _ _ (by simp [hr])]
    exact hkeys
  · intro j
    rw [qubitIndices_map_shiftEntry]
    by_cases hjq : j = q
    · subst hjq
      rw [count_map_shiftIdx_self hqnot, hc1 (j + 1)]
      by_cases h2 : j < n - 1
      · rw [if_pos ⟨by omega, by omega, by omega⟩, if_pos ⟨hq.1, h2⟩]
      · rw [if_neg (fun hh => h2 (by omega)), if_neg (fun hh => h2 hh.2)]
    · rw [count_map_shiftIdx_ne _ hjq, hc1 (if q < j then j + 1 else j)]
      by_cases hql : q < j
      · rw [if_pos hql]
        by_cases hj2 : j < n - 1
        · rw [if_pos ⟨by omega, by omega, by omega⟩, if_pos ⟨by omega, hj2⟩]
        · rw [if_neg (fun hh => hj2 (by omega)), if_neg (fun hh => hj2 hh.2)]
      · rw [if_neg hql]
        by_cases hj0 : 0 ≤ j
        · rw [if_pos ⟨hj0, by omega, hjq⟩, if_pos ⟨hj0, by omega⟩]
        · rw [if_neg (fun hh => hj0 hh.1), if_neg (fun hh => hj0 hh.1)]
  · rw [qubitIndices_map_shiftEntry, List.length_map]
    have hple := hperm.length_eq
    rw [List.length_append] at hple
    simp only [List.length_singleton] at hple
    omega

theorem ctxInv_erase_bit {c : Ctx} {n : Int} {r : Nat} {b : Bool}
    (hinv : CtxInv c n) (hr : ctxLookup c r = some (.BitRegister b)) :
    CtxInv (ctxErase c r) n := by
  obtain ⟨hkeys, hcount, hlen⟩ := hinv
  refine ⟨hkeys.sublist (ctxKeys_ctxErase_sublist c r), ?_, ?_⟩
  · intro j
    rw [qubitIndices_ctxErase_bit hkeys hr]
    exact hcount j
  · rw [qubitIndices_ctxErase_bit hkeys hr]
    exact hlen

/-! ### Correctness of the `fresh` scan -/

theorem freshAux_spec (c : Ctx) :
    ∀ (fuel i : Nat), (∃ j, i ≤ j ∧ j < i + fuel ∧ ctxLookup c j = none) →
      ctxLookup c (freshAux c fuel i) = none ∧
      i ≤ freshAux c fuel i ∧
      ∀ k, i ≤ k → k < freshAux c fuel i → (ctxLookup c k).isSome := by
  intro fuel
  induction fuel with
  | zero =>
    intro i h
    obtain ⟨j, h1, h2, _⟩ := h
    omega
  | succ f ih =>
    intro i h
    by_cases hi : (ctxLookup c i).isSome
    · have h' : ∃ j, i + 1 ≤ j ∧ j < (i + 1) + f ∧ ctxLookup c j = none := by
        obtain ⟨j, h1, h2, h3⟩ := h
        refine ⟨j, ?_, by omega, h3⟩
        rcases Nat.eq_or_lt_of_le h1 with he | hl
        · rw [he, h3] at hi
          simp at hi
        · omega
      have hrec := ih (i + 1) h'
      rw [show freshAux c (f + 1) i = freshAux c f (i + 1) by simp [freshAux, hi]]
      refine ⟨hrec.1, by omega, ?_⟩
      intro k hk1 hk2
      rcases Nat.eq_or_lt_of_le hk1 with he | hl
      · exact he ▸ hi
      · exact hrec.2.2 k hl hk2
    · rw [show freshAux c (f + 1) i = i by simp [freshAux, hi]]
      refine ⟨Option.not_isSome_iff_eq_none.mp hi, Nat.le_refl i, ?_⟩
      intro k hk1 hk2
      omega

theorem exists_unused_le_length (c : Ctx) :
    ∃ j, j ≤ c.length ∧ ctxLookup c j = none := by
  by_contra hcon
  push_neg at hcon
  have hsub : List.range (c.length + 1) ⊆ ctxKeys c := by
    intro j hj
    rw [List.mem_range] at hj
    have hne := hcon j (by omega)
    rcases ho : ctxLookup c j with _ | v
    · exact absurd ho hne
    · exact lookup_mem_keys ho
  have hle := (List.subperm_of_subset (List.nodup_range _) hsub).length_le
  rw [List.length_range] at hle
  have hkl : (ctxKeys c).length = c.length := by simp [ctxKeys]
  omega

theorem fresh_spec (c : Ctx) :
    ctxLookup c (fresh c) = none ∧ ∀ k, k < fresh c → (ctxLookup c k).isSome := by
  obtain ⟨j, hj1, hj2⟩ := exists_unused_le_length c
  have h := freshAux_spec c (c.length + 1) 0 ⟨j, by omega, by omega, hj2⟩
  exact ⟨h.1, fun k hk => h.2.2 k (by omega) hk⟩

/-! ### Shape of each operation's successful result -/

theorem new_qubit_ok_elim {B : Backend S G} {reg : Nat} {bv : Bool}
    {st : SimState S} {u : Unit} {st' : SimState S}
    (h : new_qubit B reg bv st = .ok (u, st')) :
    ctxLookup st.context reg = none ∧
    st' = ⟨st.num_qubits + 1,
      ctxInsert st.context reg (.QubitRegister (st.num_qubits + 1 - 1)),
      some (match st.state with
            | none => B.initState bv
            | some s => B.extend s (st.num_qubits + 1) bv)⟩ := by
  simp only [new_qubit] at h
  split at h
  · exact absurd h (by simp)
  · rename_i hcond
    refine ⟨Option.not_isSome_iff_eq_none.mp hcond, ?_⟩
    simp only [Except.ok.injEq, Prod.mk.injEq] at h
    exact h.2.symm

theorem measure_ok_elim {B : Backend S G} {reg : Nat}
    {st : SimState S} {u : Unit} {st' : SimState S}
    (h : measure B reg st = .ok (u, st')) :
    ∃ q s, ctxLookup st.context reg = some (.QubitRegister q) ∧
      st.state = some s ∧
      st' = ⟨st.num_qubits - 1,
        (ctxInsert st.context reg
          (.BitRegister (B.measureRun s st.num_qubits q).1)).map
            (fun p => (p.1, shiftEntry q p.2)),
        if st.num_qubits - 1 > 0
          then some (B.ptrace (B.measureRun s st.num_qubits q).2 q) else none⟩ := by
  simp only [measure] at h
  split at h
  · exact absurd h (by simp)
  · exact absurd h (by simp)
  · rename_i q hl
    split at h
    · exact absurd h (by simp)
    · rename_i s hs
      refine ⟨q, s, hl, hs, ?_⟩
      simp only [Except.ok.injEq, Prod.mk.injEq] at h
      exact h.2.symm

theorem measure_ok_lookup_self {B : Backend S G} {reg : Nat}
    {st : SimState S} {u : Unit} {st' : SimState S}
    (h : measure B reg st = .ok (u, st')) :
    ∃ out, ctxLookup st'.context reg = some (.BitRegister out) := by
  obtain ⟨q, s, hl, hs, hst⟩ := measure_ok_elim h
  subst hst
  refine ⟨(B.measureRun s st.num_qubits q).1, ?_⟩
  rw [show (⟨st.num_qubits - 1, (ctxInsert st.context reg
      (.BitRegister (B.measureRun s st.num_qubits q).1)).map
        (fun p => (p.1, shiftEntry q p.2)), if st.num_qubits - 1 > 0
          then some (B.ptrace (B.measureRun s st.num_qubits q).2 q)
          else none⟩ : SimState S).context
    = (ctxInsert st.context reg
        (.BitRegister (B.measureRun s st.num_qubits q).1)).map
          (fun p => (p.1, shiftEntry q p.2)) from rfl]
  rw [lookup_map_shiftEntry, lookup_ctxInsert_self]
  rfl

theorem readFinish_ok_elim {st2 : SimState S} {reg : Nat} {v : Int}
    {st' : SimState S} (h : readFinish st2 reg = .ok (v, st')) :
    st' = st2 ∧ ∃ b, ctxLookup st2.context reg = some (.BitRegister b) ∧
      v = if b then 1 else 0 := by
  simp only [readFinish] at h
  split at h
  · rename_i b hb
    simp only [Except.ok.injEq, Prod.mk.injEq] at h
    exact ⟨h.2.symm, b, hb, h.1.symm⟩
  · exact absurd h (by simp)

theorem readFinish_of_bit {st2 : SimState S} {reg : Nat} {b : Bool}
    (hb : ctxLookup st2.context reg = some (.BitRegister b)) :
    readFinish st2 reg = .ok ((if b then 1 else 0), st2) := by
  simp [readFinish, hb]

theorem read_ok_elim {B : Backend S G} {reg : Nat}
    {st : SimState S} {v : Int} {st' : SimState S}
    (h : read B reg st = .ok (v, st')) :
    (∃ b, ctxLookup st.context reg = some (.BitRegister b) ∧ st' = st) ∨
    (∃ u, measure B reg st = .ok (u, st')) := by
  simp only [read] at h
  split at h
  · exact absurd h (by simp)
  · rename_i q hl
    split at h
    · exact absurd h (by simp)
    · rename_i u2 st2 hstep
      obtain ⟨he, _⟩ := readFinish_ok_elim h
      exact Or.inr ⟨u2, by rw [hstep, he]⟩
  · rename_i b hl
    obtain ⟨he, _⟩ := readFinish_ok_elim h
    exact Or.inl ⟨b, hl, he⟩

theorem discard_ok_elim {B : Backend S G} {reg : Nat}
    {st : SimState S} {u : Unit} {st' : SimState S}
    (h : discard B reg st = .ok (u, st')) :
    (∃ b, ctxLookup st.context reg = some (.BitRegister b) ∧
       st' = { st with context := ctxErase st.context reg }) ∨
    (∃ u2 stm, measure B reg st = .ok (u2, stm) ∧
       st' = { stm with context := ctxErase stm.context reg }) := by
  simp only [discard] at h
  split at h
  · exact absurd h (by simp)
  · rename_i q hl
    split at h
    · exact absurd h (by simp)
    · rename_i u2 st2 hstep
      simp only [Except.ok.injEq, Prod.mk.injEq] at h
      exact Or.inr ⟨u2, st2, hstep, h.2.symm⟩
  · rename_i b hl
    simp only [Except.ok.injEq, Prod.mk.injEq] at h
    exact Or.inl ⟨b, hl, h.2.symm⟩

theorem new_qubit_from_bit_not_ok {reg : Nat} {st : SimState S}
    {u : Unit} {st' : SimState S} :
    new_qubit_from_bit reg st ≠ .ok (u, st') := by
  intro h
  simp only [new_qubit_from_bit] at h
  split at h <;> simp at h

theorem gate_ok_frame {B : Backend S G} {g : G} {regs controls : List Nat}
    {st : SimState S} {u : Unit} {st' : SimState S}
    (h : gate_operation B g regs controls st = .ok (u, st')) :
    st'.context = st.context ∧ st'.num_qubits = st.num_qubits := by
  simp only [gate_operation] at h
  split at h
  · exact absurd h (by simp)
  · split at h
    · exact absurd h (by simp)
    · simp only [Except.ok.injEq, Prod.mk.injEq] at h
      rw [← h.2]
      exact ⟨rfl, rfl⟩
    · split at h
      · exact absurd h (by simp)
      · split at h
        · exact absurd h (by simp)
        · simp only [Except.ok.injEq, Prod.mk.injEq] at h
          rw [← h.2]
          exact ⟨rfl, rfl⟩

/-! ### The reachability invariant -/

theorem runOp_inv {B : Backend S G} {op : Op G} {st : SimState S} {u : Unit}
    {st' : SimState S} (hinv : CtxInv st.context st.num_qubits)
    (h : runOp B op st = .ok (u, st')) :
    CtxInv st'.context st'.num_qubits := by
  cases op with
  | reset =>
    simp only [runOp, Except.ok.injEq, Prod.mk.injEq] at h
    rw [← h.2]
    exact ctxInv_reset
  | fresh =>
    simp only [runOp, Except.ok.injEq, Prod.mk.injEq] at h
    rw [← h.2]
    exact hinv
  | new_qubit r b =>
    obtain ⟨hl, hst⟩ := new_qubit_ok_elim h
    subst hst
    have he : st.num_qubits + 1 - 1 = st.num_qubits := by omega
    rw [show (⟨st.num_qubits + 1, ctxInsert st.context r
        (.QubitRegister (st.num_qubits + 1 - 1)), some _⟩ : SimState S).context
      = ctxInsert st.context r (.QubitRegister (st.num_qubits + 1 - 1)) from rfl, he]
    exact ctxInv_new_qubit hinv hl
  | new_qubit_from_bit r => exact absurd h new_qubit_from_bit_not_ok
  | measure r =>
    obtain ⟨q, s, hl, hs, hst⟩ := measure_ok_elim h
    subst hst
    exact ctxInv_measure _ hinv hl
  | read r =>
    simp only [runOp] at h
    split at h
    · rename_i v st2 hread
      simp only [Except.ok.injEq, Prod.mk.injEq] at h
      rw [← h.2]
      rcases read_ok_elim hread with ⟨b, _, hst⟩ | ⟨u2, hm⟩
      · rw [hst]; exact hinv
      · obtain ⟨q, s, hl, hs, hst⟩ := measure_ok_elim hm
        subst hst
        exact ctxInv_measure _ hinv hl
    · exact absurd h (by simp)
  | discard r =>
    rcases discard_ok_elim h with ⟨b, hl, hst⟩ | ⟨u2, stm, hm, hst⟩
    · subst hst
      exact ctxInv_erase_bit hinv hl
    · subst hst
      obtain ⟨out, hlm⟩ := measure_ok_lookup_self hm
      have hinvm : CtxInv stm.context stm.num_qubits := by
        obtain ⟨q, s, hl2, hs2, hst2⟩ := measure_ok_elim hm
        subst hst2
        exact ctxInv_measure _ hinv hl2
      exact ctxInv_erase_bit hinvm hlm
  | gate g regs controls =>
    obtain ⟨hc, hn⟩ := gate_ok_frame h
    rw [hc, hn]
    exact hinv

theorem runOps_inv {B : Backend S G} :
    ∀ (ops : List (Op G)) (st st' : SimState S),
      CtxInv st.context st.num_qubits → runOps B ops st = some st' →
      CtxInv st'.context st'.num_qubits := by
  intro ops
  induction ops with
  | nil =>
    intro st st' hinv h
    simp only [runOps, Option.some.injEq] at h
    rw [← h]
    exact hinv
  | cons op rest ih =>
    intro st st' hinv h
    simp only [runOps] at h
    split at h
    · rename_i u st2 hop
      exact ih st2 st' (runOp_inv hinv hop) h
    · exact absurd h (by simp)

/-! ### Lemmas about the gate validation loops -/

theorem checkTargets_none_iff {c : Ctx} {regs : List Nat} :
    checkTargets c regs = none ↔
      ∀ x ∈ regs, ∃ q, ctxLookup c x = some (.QubitRegister q) := by
  induction regs with
  | nil => simp [checkTargets]
  | cons x rest ih =>
    cases hl : ctxLookup c x with
    | none => simp [checkTargets, hl]
    | some w =>
      cases w with
      | QubitRegister q => simp [checkTargets, hl, ih]
      | BitRegister b => simp [checkTargets, hl]

theorem checkTargets_some_of_bad {c : Ctx} {regs : List Nat}
    (h : ∃ x ∈ regs, ∀ q, ctxLookup c x ≠ some (.QubitRegister q)) :
    ∃ m, checkTargets c regs = some (.UsageError m) := by
  induction regs with
  | nil => simp at h
  | cons x rest ih =>
    cases hl : ctxLookup c x with
    | none =>
      exact ⟨"Register " ++ toString x ++ " does not exist",
        by simp [checkTargets, hl]⟩
    | some w =>
      cases w with
      | BitRegister b =>
        exact ⟨"Register " ++ toString x ++ " must be of type Qubit",
          by simp [checkTargets, hl]⟩
      | QubitRegister q =>
        obtain ⟨y, hy, hbad⟩ := h
        rcases List.mem_cons.mp hy with he | hm
        · exact absurd hl (he ▸ hbad q)
        · obtain ⟨m, hm2⟩ := ih ⟨y, hm, hbad⟩
          exact ⟨m, by simp [checkTargets, hl, hm2]⟩

theorem checkControls_proceed_of_true {c : Ctx} {controls : List Nat}
    (h : ∀ y ∈ controls, ctxLookup c y = some (.BitRegister true)) :
    checkControls c controls = .proceed := by
  induction controls with
  | nil => rfl
  | cons y rest ih =>
    have hy := h y (List.mem_cons_self y rest)
    simp [checkControls, hy, ih (fun z hz => h z (List.mem_cons_of_mem y hz))]

theorem checkControls_skip_of_false {c : Ctx} {pre : List Nat} {y : Nat}
    {post : List Nat}
    (hpre : ∀ z ∈ pre, ctxLookup c z = some (.BitRegister true))
    (hy : ctxLookup c y = some (.BitRegister false)) :
    checkControls c (pre ++ y :: post) = .skip := by
  induction pre with
  | nil => simp [checkControls, hy]
  | cons z rest ih =>
    have hz := hpre z (List.mem_cons_self z rest)
    simp [checkControls, hz, ih (fun w hw => hpre w (List.mem_cons_of_mem z hw))]

theorem checkControls_err_of_bad (c : Ctx) (pre : List Nat) (y : Nat)
    (post : List Nat)
    (hpre : ∀ z ∈ pre, ctxLookup c z = some (.BitRegister true))
    (hy : ∀ b, ctxLookup c y ≠ some (.BitRegister b)) :
    ∃ m, checkControls c (pre ++ y :: post) = .err (.UsageError m) := by
  induction pre with
  | nil =>
    cases hl : ctxLookup c y with
    | none =>
      exact ⟨"Register " ++ toString y ++ " does not exist",
        by simp [checkControls, hl]⟩
    | some w =>
      cases w with
      | QubitRegister q =>
        exact ⟨"Register " ++ toString y ++ " must be of type Bit",
          by simp [checkControls, hl]⟩
      | BitRegister b => exact absurd hl (hy b)
  | cons z rest ih =>
    have hz := hpre z (List.mem_cons_self z rest)
    obtain ⟨m, hm⟩ := ih (fun w hw => hpre w (List.mem_cons_of_mem z hw))
    exact ⟨m, by simp [checkControls, hz, hm]⟩

theorem mapM_qubitIdx {c : Ctx} {regs : List Nat}
    (h : ∀ x ∈ regs, ∃ q, ctxLookup c x = some (.QubitRegister q)) :
    (regs.mapM (fun x =>
      match ctxLookup c x with
      | some (.QubitRegister q) => some q
      | _ => none)) = some (regs.map (qubitIdx c)) := by
  induction regs with
  | nil => rfl
  | cons x rest ih =>
    obtain ⟨q, hq⟩ := h x (List.mem_cons_self x rest)
    have hrest := ih (fun z hz => h z (List.mem_cons_of_mem x hz))
    rw [List.mapM_cons, hq]
    simp only [hrest, Option.pure_def, Option.bind_eq_bind, Option.some_bind]
    rw [List.map_cons, show qubitIdx c x = q by simp [qubitIdx, hq]]

theorem gate_operation_err_targets {B : Backend S G} {g : G}
    {regs controls : List Nat} {st : SimState S}
    (h : ∃ x ∈ regs, ∀ q, ctxLookup st.context x ≠ some (.QubitRegister q)) :
    ∃ m, gate_operation B g regs controls st = .error (.UsageError m, st) := by
  obtain ⟨m, hm⟩ := checkTargets_some_of_bad h
  exact ⟨m, by simp [gate_operation, hm]⟩

theorem gate_operation_skip {B : Backend S G} {g : G}
    {regs controls : List Nat} {st : SimState S}
    (ht : checkTargets st.context regs = none)
    (hc : checkControls st.context controls = .skip) :
    gate_operation B g regs controls st = .ok ((), st) := by
  simp [gate_operation, ht, hc]

theorem gate_operation_controls_true {B : Backend S G} {g : G}
    {regs controls : List Nat} {st : SimState S}
    (h : ∀ y ∈ controls, ctxLookup st.context y = some (.BitRegister true)) :
    gate_operation B g regs controls st = gate_operation B g regs [] st := by
  simp only [gate_operation, checkControls_proceed_of_true h]
  rfl

theorem gate_operation_apply {B : Backend S G} {g : G}
    {regs controls : List Nat} {st : SimState S} {s : S}
    (ht : checkTargets st.context regs = none)
    (hc : checkControls st.context controls = .proceed)
    (hs : st.state = some s) :
    gate_operation B g regs controls st
      = .ok ((), { st with state := some (B.applyGate s st.num_qubits g
          (regs.map (qubitIdx st.context))) }) := by
  have hm := mapM_qubitIdx (checkTargets_none_iff.mp ht)
  simp only [gate_operation, ht, hc, hs, hm]

/-- Reading a register freshly allocated at the top index `nq - 1`: the
measurement inside `read` samples the backend on that index and returns the
outcome bit. -/
theorem read_after_alloc {B : Backend S G} {reg : Nat} {c : Ctx} {nq : Int}
    {sN : S} :
    Except.map Prod.fst (read B reg
        ⟨nq, ctxInsert c reg (.QubitRegister (nq - 1)), some sN⟩)
      = .ok (if (B.measureRun sN nq (nq - 1)).1 then 1 else 0) := by
  have hq1 : ctxLookup (ctxInsert c reg (.QubitRegister (nq - 1))) reg
      = some (.QubitRegister (nq - 1)) := lookup_ctxInsert_self _ _ _
  have hl2 : ctxLookup ((ctxInsert (ctxInsert c reg (.QubitRegister (nq - 1))) reg
      (.BitRegister (B.measureRun sN nq (nq - 1)).1)).map
        (fun p => (p.1, shiftEntry (nq - 1) p.2))) reg
      = some (.BitRegister (B.measureRun sN nq (nq - 1)).1) := by
    rw [lookup_map_shiftEntry, lookup_ctxInsert_self]
    rfl
  simp only [read, measure, hq1, hl2, readFinish, Except.map]

/-! ### The claims -/

/-- C1: for every sequence of successful public operations starting from the
initial state, the set of qubit indices across all `Qubit` entries of the
resulting context is exactly `{0, ..., num_qubits - 1}` with no gaps or
duplicates, and `num_qubits` equals the count of `Qubit` entries. -/
theorem qubit_index_invariant {B : Backend S G} (ops : List (Op G))
    (st : SimState S) (h : runOps B ops (resetState S) = some st) :
    (qubitIndices st.context).Nodup ∧
    (∀ i : Int, i ∈ qubitIndices st.context ↔ 0 ≤ i ∧ i < st.num_qubits) ∧
    st.num_qubits = (numQubitEntries st.context : Int) := by
  have hinv : CtxInv st.context st.num_qubits :=
    runOps_inv ops (resetState S) st ctxInv_reset h
  obtain ⟨hkeys, hcount, hlen⟩ := hinv
  refine ⟨?_, ?_, ?_⟩
  · rw [List.nodup_iff_count_le_one]
    intro a
    rw [hcount a]
    split <;> omega
  · intro i
    rw [← List.count_pos_iff, hcount i]
    constructor
    · intro hp
      by_contra hcon
      rw [if_neg hcon] at hp
      omega
    · intro hin
      rw [if_pos hin]
      omega
  · rw [hlen, length_qubitIndices]

/-- C1 witness: the invariant instantiated on the concrete run `opsW`. -/
theorem qubit_index_invariant_w :
    (qubitIndices stOpsW.context).Nodup ∧
    (((0 : Int) ∈ qubitIndices stOpsW.context) ↔
      0 ≤ (0 : Int) ∧ (0 : Int) < stOpsW.num_qubits) ∧
    stOpsW.num_qubits = (numQubitEntries stOpsW.context : Int) := by
  have h := qubit_index_invariant (B := FunBackend) opsW stOpsW rfl
  exact ⟨h.1, h.2.1 0, h.2.2⟩

/-- C2: a successful `measure(reg)` of the qubit at physical index `q`
converts `reg` into a `Bit` holding the sampled outcome, decrements every
other qubit index greater than `q` by exactly one (indices not above `q`
unchanged), decrements `num_qubits` by one, and the state becomes absent
when `num_qubits` reaches zero. -/
theorem measure_reindexing {B : Backend S G} (reg : Nat) (st : SimState S)
    (q : Int) (s : S) (stf : SimState S)
    (hq : ctxLookup st.context reg = some (.QubitRegister q))
    (hs : st.state = some s)
    (h : measure B reg st = .ok ((), stf)) :
    ctxLookup stf.context reg
      = some (.BitRegister (B.measureRun s st.num_qubits q).1) ∧
    (∀ (r' : Nat) (x : Int), r' ≠ reg →
      ctxLookup st.context r' = some (.QubitRegister x) →
      ctxLookup stf.context r'
        = some (.QubitRegister (if x > q then x - 1 else x))) ∧
    stf.num_qubits = st.num_qubits - 1 ∧
    (stf.num_qubits = 0 → stf.state = none) := by
  obtain ⟨q2, s2, hq2, hs2, hst⟩ := measure_ok_elim h
  rw [hq] at hq2
  rw [hs] at hs2
  have hqe : q = q2 := by simpa using hq2
  have hse : s = s2 := by simpa using hs2
  subst hqe
  subst hse
  subst hst
  refine ⟨?_, ?_, rfl, ?_⟩
  · rw [show (⟨st.num_qubits - 1, (ctxInsert st.context reg
        (.BitRegister (B.measureRun s st.num_qubits q).1)).map
          (fun p => (p.1, shiftEntry q p.2)),
        if st.num_qubits - 1 > 0
          then some (B.ptrace (B.measureRun s st.num_qubits q).2 q)
          else none⟩ : SimState S).context
      = (ctxInsert st.context reg
          (.BitRegister (B.measureRun s st.num_qubits q).1)).map
            (fun p => (p.1, shiftEntry q p.2)) from rfl]
    rw [lookup_map_shiftEntry, lookup_ctxInsert_self]
    rfl
  · intro r' x hne hx
    rw [show (⟨st.num_qubits - 1, (ctxInsert st.context reg
        (.BitRegister (B.measureRun s st.num_qubits q).1)).map
          (fun p => (p.1, shiftEntry q p.2)),
        if st.num_qubits - 1 > 0
          then some (B.ptrace (B.measureRun s st.num_qubits q).2 q)
          else none⟩ : SimState S).context
      = (ctxInsert st.context reg
          (.BitRegister (B.measureRun s st.num_qubits q).1)).map
            (fun p => (p.1, shiftEntry q p.2)) from rfl]
    rw [lookup_map_shiftEntry, lookup_ctxInsert_ne _ _ hne, hx]
    rfl
  · intro h0
    have h0' : st.num_qubits - 1 = 0 := h0
    rw [show (⟨st.num_qubits - 1, (ctxInsert st.context reg
        (.BitRegister (B.measureRun s st.num_qubits q).1)).map
          (fun p => (p.1, shiftEntry q p.2)),
        if st.num_qubits - 1 > 0
          then some (B.ptrace (B.measureRun s st.num_qubits q).2 q)
          else none⟩ : SimState S).state
      = (if st.num_qubits - 1 > 0
          then some (B.ptrace (B.measureRun s st.num_qubits q).2 q)
          else none) from rfl]
    rw [if_neg (by omega)]

/-- C2 witness: measuring register 10 (index 0) of the three-qubit state
`stW` moves registers 11 and 12 down to indices 0 and 1. -/
theorem measure_reindexing_w :
    ctxLookup stW2.context 10 = some (.BitRegister false) ∧
    ctxLookup stW2.context 11 = some (.QubitRegister 0) ∧
    ctxLookup stW2.context 12 = some (.QubitRegister 1) ∧
    stW2.num_qubits = 2 := by
  have h := measure_reindexing (B := FunBackend) 10 stW 0
    (fun _ => false) stW2 rfl rfl rfl
  exact ⟨h.1, h.2.1 11 1 (by decide) rfl, h.2.1 12 2 (by decide) rfl, h.2.2.1⟩

/-- C3: contrary to the claim, `new_qubit_from_bit` on an existing `Bit`
register does not succeed: the source evaluates the unbound name `b_reg`
and Python raises `NameError` — after the `Bit` entry has already been
deleted from the context. -/
theorem new_qubit_from_bit_name_error :
    new_qubit_from_bit 0 stB
      = .error (.NameError "name b_reg is not defined",
          (⟨0, [], none⟩ : SimState (Int → Bool))) := rfl

/-- C4: atomicity fails on `new_qubit_from_bit`: the raised error is a
`NameError` (not a backend measurement failure inside measure/discard), and
the context carried past the error differs from the context before the
call — the `Bit` entry was deleted before the exception. -/
theorem atomicity_violation_new_qubit_from_bit :
    runOp FunBackend (.new_qubit_from_bit 0) stB
      = .error (.NameError "name b_reg is not defined",
          (⟨0, [], none⟩ : SimState (Int → Bool))) ∧
    (⟨0, [], none⟩ : SimState (Int → Bool)).context ≠ stB.context :=
  ⟨rfl, by decide⟩

/-- C5 counterexample: all targets are valid qubits and control register 1
holds `Bit false`, yet the call with control list `[5, 1]` raises
`UsageError` (register 5 does not exist) instead of returning unchanged —
the claim as stated fails when an invalid control precedes the false one. -/
theorem gate_false_control_cex :
    ctxLookup stG.context 1 = some (.BitRegister false) ∧
    gate_operation FunBackend () [0] [5, 1] stG
      = .error (.UsageError "Register 5 does not exist", stG) := ⟨rfl, rfl⟩

/-- C5 amended: (a) if every target is an existing qubit and some control in
the list holds `Bit false` while every control before it is an existing
`Bit` holding `true`, the gate returns without error and the whole state is
unchanged; (b) if every control holds `Bit true` (in particular when there
are none), the call behaves exactly as the uncontrolled call. -/
theorem gate_control_short_circuit {B : Backend S G} (g : G)
    (regs controls : List Nat) (st : SimState S) :
    ((∀ x ∈ regs, ∃ qi, ctxLookup st.context x = some (.QubitRegister qi)) →
      ∀ pre y post, controls = pre ++ y :: post →
      (∀ z ∈ pre, ctxLookup st.context z = some (.BitRegister true)) →
      ctxLookup st.context y = some (.BitRegister false) →
      gate_operation B g regs controls st = .ok ((), st)) ∧
    ((∀ y ∈ controls, ctxLookup st.context y = some (.BitRegister true)) →
      gate_operation B g regs controls st = gate_operation B g regs [] st) := by
  constructor
  · intro ht pre y post hdec hpre hy
    subst hdec
    exact gate_operation_skip (checkTargets_none_iff.mpr ht)
      (checkControls_skip_of_false hpre hy)
  · intro h
    exact gate_operation_controls_true h

/-- C5 witness: with control list `[2, 1]` (register 2 true, register 1
false) the gate on register 0 is skipped leaving `stG` unchanged; with
control list `[2]` (true) it equals the uncontrolled call. -/
theorem gate_control_short_circuit_w :
    gate_operation FunBackend () [0] [2, 1] stG = .ok ((), stG) ∧
    gate_operation FunBackend () [0] [2] stG
      = gate_operation FunBackend () [0] [] stG := by
  have h := gate_control_short_circuit (B := FunBackend) () [0] [2, 1] stG
  have h2 := gate_control_short_circuit (B := FunBackend) () [0] [2] stG
  refine ⟨h.1 ?_ [2] 1 [] rfl ?_ rfl, h2.2 ?_⟩
  · intro x hx
    have : x = 0 := by simpa using hx
    exact ⟨0, by rw [this]; rfl⟩
  · intro z hz
    have : z = 2 := by simpa using hz
    rw [this]
    rfl
  · intro y hy
    have : y = 2 := by simpa using hy
    rw [this]
    rfl

/-- C6 counterexample: control register 1 holds `Bit false` and register 5
is absent from the context, yet the call with control list `[1, 5]`
succeeds as a no-op — the absent control after the false one is never
validated, refuting the claim that it always raises `UsageError`. -/
theorem gate_unchecked_control_cex :
    ctxLookup stG.context 5 = none ∧
    gate_operation FunBackend () [0] [1, 5] stG = .ok ((), stG) := ⟨rfl, rfl⟩

/-- C6 amended: a gate call fails with `UsageError` whenever some target is
absent or not a `Qubit` (regardless of the controls); a control that is
absent or not a `Bit` causes `UsageError` provided every control earlier in
the list exists as a `Bit` holding `true` — the control scan stops at the
first false control, so controls after it are not validated. -/
theorem gate_validation {B : Backend S G} (g : G)
    (regs controls : List Nat) (st : SimState S) :
    ((∃ x ∈ regs, ∀ qi, ctxLookup st.context x ≠ some (.QubitRegister qi)) →
      ∃ m, gate_operation B g regs controls st = .error (.UsageError m, st)) ∧
    ((∀ x ∈ regs, ∃ qi, ctxLookup st.context x = some (.QubitRegister qi)) →
      ∀ pre y post, controls = pre ++ y :: post →
      (∀ z ∈ pre, ctxLookup st.context z = some (.BitRegister true)) →
      (∀ b, ctxLookup st.context y ≠ some (.BitRegister b)) →
      ∃ m, gate_operation B g regs controls st = .error (.UsageError m, st)) := by
  constructor
  · exact gate_operation_err_targets
  · intro ht pre y post hdec hpre hy
    subst hdec
    obtain ⟨m, hm⟩ := checkControls_err_of_bad st.context pre y post hpre hy
    exact ⟨m, by simp [gate_operation, checkTargets_none_iff.mpr ht, hm]⟩

/-- C6 witness: a missing target (register 8) raises `UsageError`; a missing
control (register 9) after the true control 2 raises `UsageError`. -/
theorem gate_validation_w :
    usageFailure (gate_operation FunBackend () [8] [1] stG) = true ∧
    usageFailure (gate_operation FunBackend () [0] [2, 9] stG) = true := by
  constructor
  · obtain ⟨m, hm⟩ := (gate_validation (B := FunBackend) () [8] [1] stG).1
      ⟨8, by simp, fun qi hq => by
        rw [show ctxLookup stG.context 8 = none from rfl] at hq
        exact Option.noConfusion hq⟩
    rw [hm]
    rfl
  · obtain ⟨m, hm⟩ := (gate_validation (B := FunBackend) () [0] [2, 9] stG).2
      (fun x hx => by
        have : x = 0 := by simpa using hx
        exact ⟨0, by rw [this]; rfl⟩)
      [2] 9 [] rfl
      (fun z hz => by
        have : z = 2 := by simpa using hz
        rw [this]
        rfl)
      (fun b hq => by
        rw [show ctxLookup stG.context 9 = none from rfl] at hq
        exact Option.noConfusion hq)
    rw [hm]
    rfl

/-- C7: `new_qubit(reg, b)` followed immediately by `read(reg)`
deterministically returns `1` when `b` is true and `0` when `b` is false,
for any backend realizing the spec §6 projective-measurement contract on
freshly prepared qubits, in any state whose state vector is absent only
when `num_qubits` is zero. -/
theorem new_qubit_read_round_trip {B : Backend S G} (reg : Nat) (b : Bool)
    (st : SimState S) (stn : SimState S)
    (hb1 : ∀ v, (B.measureRun (B.initState v) 1 0).1 = v)
    (hb2 : ∀ s n v, (B.measureRun (B.extend s n v) n (n - 1)).1 = v)
    (h0 : st.state = none → st.num_qubits = 0)
    (h : new_qubit B reg b st = .ok ((), stn)) :
    Except.map Prod.fst (read B reg stn) = .ok (if b then 1 else 0) := by
  obtain ⟨hr, hst1⟩ := new_qubit_ok_elim h
  subst hst1
  cases hsx : st.state with
  | none =>
    have h00 := h0 hsx
    rw [read_after_alloc,
      show st.num_qubits + 1 - 1 = (0 : Int) by omega,
      show st.num_qubits + 1 = (1 : Int) by omega, hb1 b]
  | some s =>
    rw [read_after_alloc, hb2 s (st.num_qubits + 1) b]

/-- C7 witness: allocating register 0 as a true qubit from the initial state
and reading it back yields 1. -/
theorem new_qubit_read_round_trip_w :
    Except.map Prod.fst (read FunBackend 0 stC7) = .ok 1 := by
  have h := new_qubit_read_round_trip (B := FunBackend) 0 true
    (resetState (Int → Bool)) stC7
    (fun v => rfl)
    (fun s n v => if_pos rfl)
    (fun _ => rfl)
    rfl
  exact h

/-- C8: `fresh` returns the smallest register identifier that is not a key
of the context (every smaller identifier is bound), and running it as a
public operation leaves the simulator state untouched. -/
theorem fresh_least_unused {B : Backend S G} (st : SimState S) :
    ctxLookup st.context (fresh st.context) = none ∧
    (∀ j : Nat, j < fresh st.context → (ctxLookup st.context j).isSome) ∧
    runOp B .fresh st = .ok ((), st) :=
  ⟨(fresh_spec st.context).1, fun j hj => (fresh_spec st.context).2 j hj, rfl⟩

/-- C8 witness: on the context of `stG` (keys 0, 1, 2) `fresh` returns an
unbound identifier, identifier 2 below it is bound, and the state is kept. -/
theorem fresh_least_unused_w :
    ctxLookup stG.context (fresh stG.context) = none ∧
    (ctxLookup stG.context 2).isSome = true ∧
    runOp FunBackend .fresh stG = .ok ((), stG) := by
  have h := fresh_least_unused (B := FunBackend) stG
  exact ⟨h.1, h.2.1 2 (by decide), h.2.2⟩

/-- C9: all targets are validated before any control is consulted: if some
target is absent or not a qubit, the gate call raises `UsageError` even when
a control in the list holds `Bit false` (which would otherwise make the
operation a silent no-op). -/
theorem targets_validated_before_controls {B : Backend S G} (g : G)
    (regs controls : List Nat) (st : SimState S)
    (hbad : ∃ x ∈ regs, ∀ qi, ctxLookup st.context x ≠ some (.QubitRegister qi))
    (_hfalse : ∃ y ∈ controls, ctxLookup st.context y = some (.BitRegister false)) :
    ∃ m, gate_operation B g regs controls st = .error (.UsageError m, st) :=
  gate_operation_err_targets hbad

/-- C9 witness: target register 9 is absent and control register 1 holds
false; the call still fails with `UsageError`. -/
theorem targets_validated_before_controls_w :
    usageFailure (gate_operation FunBackend () [9] [1] stG) = true := by
  obtain ⟨m, hm⟩ := targets_validated_before_controls (B := FunBackend) () [9] [1] stG
    ⟨9, by simp, fun qi hq => by
      rw [show ctxLookup stG.context 9 = none from rfl] at hq
      exact Option.noConfusion hq⟩
    ⟨1, by simp, rfl⟩
  rw [hm]
  rfl

/-- C10: on a register holding `Bit b`, `read` returns `b` as `1`/`0` and
returns the state completely unchanged (so consecutive reads agree), and
`discard` removes exactly that entry: `num_qubits`, the state vector, and
every other context entry are untouched and the register is gone. -/
theorem read_discard_bit_frame {B : Backend S G} (reg : Nat) (st : SimState S)
    (b : Bool) (hb : ctxLookup st.context reg = some (.BitRegister b)) :
    read B reg st = .ok ((if b then 1 else 0), st) ∧
    discard B reg st
      = .ok ((), { st with context := ctxErase st.context reg }) ∧
    ctxLookup (ctxErase st.context reg) reg = none ∧
    (∀ r', r' ≠ reg →
      ctxLookup (ctxErase st.context reg) r' = ctxLookup st.context r') := by
  refine ⟨?_, ?_, lookup_ctxErase_self _ _, fun r' hr' => lookup_ctxErase_ne hr'⟩
  · simp only [read, hb]
    exact readFinish_of_bit hb
  · simp only [discard, hb]

/-- C10 witness: reading the bit at register 3 of `stR` gives 1 and keeps
the state; discarding it removes only that entry. -/
theorem read_discard_bit_frame_w :
    read FunBackend 3 stR = .ok (1, stR) ∧
    discard FunBackend 3 stR
      = .ok ((), (⟨1, [(4, .QubitRegister 0)], some (fun _ => true)⟩ :
          SimState (Int → Bool))) ∧
    ctxLookup (ctxErase stR.context 3) 3 = none ∧
    ctxLookup (ctxErase stR.context 3) 4 = ctxLookup stR.context 4 := by
  have h := read_discard_bit_frame (B := FunBackend) 3 stR true rfl
  exact ⟨h.1, h.2.1, h.2.2.1, h.2.2.2 4 (by decide)⟩

end QServer
